import Mathlib

/-!
# Verification of the macrodata memory indexing and retrieval engine

Shallow embedding of the conversation-exchange extractor, the incremental
conversation index (`src/unnamed/part_002`, a TypeScript module built around
`parseConversationFile`, `rebuildConversationIndex`, `updateConversationIndex`,
`getTimeWeight` and `searchConversations`) and of the memory indexer
(`src/plugins/macrodata/src/indexer.ts`: `searchMemory`,
`parseJournalForIndexing`, `parseEntitiesForIndexing`, `indexJournalEntry`,
`indexEntityFile`).

Modelling conventions:
* JavaScript strings are modelled as `List Char` (`Str`), so that every string
  operation is structurally recursive and kernel-computable.  The few string
  primitives the source uses (`trim`, `startsWith`, `includes`, `slice`,
  `split`) are defined below with JS semantics.
* `number` similarity scores are modelled as `ℚ`; epoch-millisecond times as
  `ℤ` (`new Date(ts).getTime()` is modelled by storing the epoch value
  directly).
* Fallible collaborator calls (embedding gateway, vector store) are modelled
  with `Except Unit`; the success of each call is injected through the
  environment, and the number of embedding-gateway invocations is counted.
* JS truthiness of optional strings (`undefined` and `""` are falsy) is
  modelled by `jsTruthy`/`jsOr`.
-/

/-- JavaScript strings, modelled as lists of characters. -/
abbrev Str := List Char

/-- JS `String.prototype.trim`: drop whitespace from both ends. -/
def strTrim (s : Str) : Str :=
  ((s.dropWhile Char.isWhitespace).reverse.dropWhile Char.isWhitespace).reverse

/-- JS `a.startsWith(b)`. -/
def strStartsWith (s p : Str) : Bool :=
  p.isPrefixOf s

/-- Split `s` at the first occurrence of `sep`, returning the parts before and
after the separator.  `none` when `sep` does not occur in `s`. -/
def splitFirst (sep : Str) : Str → Option (Str × Str)
  | [] => if sep.isPrefixOf ([] : Str) then some ([], []) else none
  | c :: rest =>
    if sep.isPrefixOf (c :: rest) then some ([], (c :: rest).drop sep.length)
    else match splitFirst sep rest with
      | some (a, b) => some (c :: a, b)
      | none => none

/-- JS `a.includes(b)`: `b` occurs as a contiguous substring of `a`. -/
def strIncludes (s sub : Str) : Bool :=
  (splitFirst sub s).isSome

/-- JS truthiness for an optional string: `undefined` and `""` are falsy. -/
def jsTruthy : Option Str → Bool
  | none => false
  | some s => !s.isEmpty

/-- JS `a || b` for an optional string `a` (falls through on `undefined` and
on `""`). -/
def jsOr (o : Option Str) (d : Str) : Str :=
  if jsTruthy o then o.getD [] else d

/-- JS string interpolation of a possibly-`undefined` value: `undefined`
renders as the literal text `"undefined"`. -/
def jsTemplate (o : Option Str) : Str :=
  o.getD "undefined".data

/-- JS `<` on strings: lexicographic comparison by code unit. -/
def strLt : Str → Str → Bool
  | [], [] => false
  | [], _ :: _ => true
  | _ :: _, [] => false
  | a :: as, b :: bs => if a < b then true else if b < a then false else strLt as bs

/-- `basename` from node's `path` module, restricted to what the indexer needs:
the last `/`-separated component. -/
def basenameStr (p : Str) : Str :=
  (p.splitOn '/').getLastD []

/-! ## Conversation log data model (`src/unnamed/part_002`) -/

/-- One typed content block of a transcript record
(`{ type: string; text?: string; tool_use_id?: string }`). -/
structure ContentBlock where
  btype : Str
  text : Option Str
  toolUseId : Option Str
deriving DecidableEq, Repr

/-- `message.content`: either a plain string or a list of typed blocks. -/
inductive MsgContent where
  | str (s : Str)
  | blocks (items : List ContentBlock)
deriving DecidableEq, Repr

/-- One line of a conversation `.jsonl` log (`ConversationMessage`).  The
nested `message?.content` access is collapsed into one optional field. -/
structure ConvMessage where
  mtype : Str
  content : Option MsgContent
  uuid : Option Str
  timestamp : Option Str
  sessionId : Option Str
  cwd : Option Str
  gitBranch : Option Str
deriving DecidableEq, Repr

/-- `ConversationExchange` from the conversation indexer. -/
structure ConversationExchange where
  id : Str
  userPrompt : Str
  assistantSummary : Str
  project : Str
  projectPath : Str
  branch : Option Str
  timestamp : Str
  sessionId : Str
  sessionPath : Str
  messageUuid : Str
deriving DecidableEq, Repr

/-- JS truthiness of `msg.message?.content`: absent content and the empty
string are falsy, a block array (even empty) is truthy. -/
def contentTruthy : Option MsgContent → Bool
  | none => false
  | some (.str s) => !s.isEmpty
  | some (.blocks _) => true

/-- `extractAssistantText`: first text block (or the whole string content),
bounded to 500 characters.  A block counts only when `block.type === "text"`
and `block.text` is truthy. -/
def extractAssistantText : MsgContent → Str
  | .str s => s.take 500
  | .blocks items => extractAssistantTextBlocks items
where
  /-- Scan for the first truthy text block. -/
  extractAssistantTextBlocks : List ContentBlock → Str
  | [] => []
  | b :: rest =>
    if b.btype = "text".data ∧ jsTruthy b.text then (b.text.getD []).take 500
    else extractAssistantTextBlocks rest

/-- `isToolResult`: array content containing a `tool_result` block or a block
with a `tool_use_id` field is agent plumbing, not a user prompt. -/
def isToolResult : MsgContent → Bool
  | .str _ => false
  | .blocks items =>
    items.any fun b => b.btype = "tool_result".data || b.toolUseId.isSome

/-- `isNoiseContent`: content that must not be indexed — compacted session
summaries, local command output, hook-injected context, and very short
messages. -/
def isNoiseContent (content : Str) : Bool :=
  strStartsWith content "This session is being continued from a previous conversation".data ||
  strIncludes content "<local-command-stdout>".data ||
  strIncludes content "<local-command-caveat>".data ||
  strIncludes content "<command-name>".data ||
  strStartsWith content "<current_time>".data ||
  strStartsWith content "<context_status>".data ||
  strStartsWith content "<state_files>".data ||
  strStartsWith content "<system-reminder>".data ||
  strStartsWith content "## Current State Files".data ||
  strStartsWith content "Base directory for this skill:".data ||
  decide ((strTrim content).length < 10)

/-- First text block of user content, skipping tool-result blocks.  A block
is taken when `b.type === "text"` and `typeof b.text === "string"`. -/
def firstUserTextBlock : List ContentBlock → Str
  | [] => []
  | b :: rest =>
    if b.btype = "tool_result".data ∨ b.toolUseId.isSome then firstUserTextBlock rest
    else if b.btype = "text".data ∧ b.text.isSome then b.text.getD []
    else firstUserTextBlock rest

/-- `extractUserText`: raw text of a user record, with agent-context envelopes
unwrapped by taking everything after the first `"\nUser message: "` marker
(the regex `/\nUser message: (.+)$/s` matches at the first occurrence and the
capture needs at least one character). -/
def extractUserText (c : MsgContent) : Str :=
  let text := match c with
    | .str s => s
    | .blocks items => firstUserTextBlock items
  if text.isEmpty then []
  else if strStartsWith text "# Agent Context".data ∨
      strIncludes text "\nUser message: ".data then
    match splitFirst "\nUser message: ".data text with
    | some (_, rest) => if rest.isEmpty then [] else strTrim rest
    | none => []
  else text

/-- The pending user turn held by `parseConversationFile`: the record and its
extracted text. -/
abbrev PendingUser := ConvMessage × Str

/-- Build the `ConversationExchange` pushed by `parseConversationFile`.
`now` models `new Date().toISOString()`, `fileBase` models
`basename(filePath, ".jsonl")`. -/
def mkExchange (now fileBase filePath projectPath projectName : Str)
    (um : ConvMessage) (utext atext : Str) : ConversationExchange :=
  { id := "conv-".data ++ jsTemplate um.sessionId ++ "-".data ++ jsTemplate um.uuid
    userPrompt := utext.take 1000
    assistantSummary := atext
    project := projectName
    projectPath := projectPath
    branch := um.gitBranch
    timestamp := jsOr um.timestamp now
    sessionId := jsOr um.sessionId fileBase
    sessionPath := filePath
    messageUuid := jsOr um.uuid [] }

/-- One iteration of the `parseConversationFile` loop: given the pending user
turn, process one (already JSON-parsed, `none` for a malformed line) record;
returns the new pending turn and the exchanges emitted by this record. -/
def convStep (now fileBase filePath projectPath projectName : Str)
    (st : Option PendingUser) :
    Option ConvMessage → Option PendingUser × List ConversationExchange
  | none => (st, [])
  | some msg =>
    match msg.content with
    | none => (st, [])
    | some c =>
      if msg.mtype = "user".data ∧ contentTruthy (some c) then
        if isToolResult c then (st, [])
        else
          let userText := extractUserText c
          if userText.isEmpty ∨ isNoiseContent userText then (st, [])
          else (some (msg, userText), [])
      else if msg.mtype = "assistant".data ∧ st.isSome ∧ contentTruthy (some c) then
        match st with
        | some (um, utext) =>
          let atext := extractAssistantText c
          if ¬utext.isEmpty ∧ ¬atext.isEmpty then
            (none, [mkExchange now fileBase filePath projectPath projectName um utext atext])
          else (none, [])
        | none => (st, [])
      else (st, [])

/-- Tail of the extraction loop, threading the pending user turn. -/
def convGo (now fileBase filePath projectPath projectName : Str)
    (st : Option PendingUser) : List (Option ConvMessage) → List ConversationExchange
  | [] => []
  | l :: ls =>
    let (st₁, es) := convStep now fileBase filePath projectPath projectName st l
    es ++ convGo now fileBase filePath projectPath projectName st₁ ls

/-- `parseConversationFile`: extract user → assistant exchanges from the
(already line-split and JSON-parsed) records of one conversation log. -/
def parseConversationFile (now fileBase filePath projectPath : Str)
    (lines : List (Option ConvMessage)) : List ConversationExchange :=
  convGo now fileBase filePath projectPath (basenameStr projectPath) none lines

/-! ## Ranking engine (`getTimeWeight`, `searchConversations`) -/

/-- Milliseconds per day (`24 * 60 * 60 * 1000`). -/
def dayMs : ℤ := 24 * 60 * 60 * 1000

/-- `getTimeWeight`: recency multiplier from the age `now - timestamp` in
epoch milliseconds (the `new Date(timestamp).getTime()` parse is modelled by
passing the epoch value). -/
def getTimeWeight (now tsMs : ℤ) : ℚ :=
  let age := now - tsMs
  if age < 7 * dayMs then 1
  else if age < 30 * dayMs then 9/10
  else if age < 90 * dayMs then 7/10
  else if age < 365 * dayMs then 1/2
  else 3/10

/-- One item returned by the vector store's `queryItems` for the conversation
index: raw similarity plus the metadata fields the reranker reads. -/
structure ConvQueryHit where
  score : ℚ
  projectPath : Str
  timestampMs : ℤ
deriving DecidableEq, Repr

/-- One `ConversationSearchResult` (exchange reference, raw score, adjusted
score). -/
structure ConvSearchResult where
  projectPath : Str
  timestampMs : ℤ
  score : ℚ
  adjustedScore : ℚ
deriving DecidableEq, Repr

/-- The adjusted score computed inside `searchConversations`:
`adjustedScore = r.score`, `adjustedScore *= getTimeWeight(...)`, then
`adjustedScore *= 1.5` when `currentProject` is truthy and the exchange's
`projectPath` strictly equals it. -/
def adjustScore (now : ℤ) (currentProject : Option Str) (h : ConvQueryHit) : ℚ :=
  let weighted := h.score * getTimeWeight now h.timestampMs
  if jsTruthy currentProject ∧ h.projectPath = currentProject.getD []
  then weighted * (3/2)
  else weighted

/-- Map one query hit to a search result with its adjusted score. -/
def toConvResult (now : ℤ) (currentProject : Option Str) (h : ConvQueryHit) :
    ConvSearchResult :=
  { projectPath := h.projectPath
    timestampMs := h.timestampMs
    score := h.score
    adjustedScore := adjustScore now currentProject h }

/-- Stable insertion used to model the JS stable
`sort((a, b) => b.adjustedScore - a.adjustedScore)`: an element is placed
before the first element of strictly smaller or equal score that it precedes
in the original order, keeping equal-score elements in input order. -/
def insertByAdjusted (x : ConvSearchResult) : List ConvSearchResult → List ConvSearchResult
  | [] => [x]
  | y :: ys =>
    if y.adjustedScore ≤ x.adjustedScore then x :: y :: ys
    else y :: insertByAdjusted x ys

/-- Stable descending sort by `adjustedScore` (JS `Array.prototype.sort` is
stable). -/
def sortByAdjustedDesc (l : List ConvSearchResult) : List ConvSearchResult :=
  l.foldr insertByAdjusted []

/-- `searchConversations` after the query-vector step: map the oversampled
hits to adjusted scores, filter to the current project when
`projectOnly && currentProject`, and sort descending by adjusted score
(before the final `slice(0, limit)`). -/
def searchConversationsRanked (now : ℤ) (currentProject : Option Str)
    (projectOnly : Bool) (hits : List ConvQueryHit) : List ConvSearchResult :=
  let searchResults := hits.map (toConvResult now currentProject)
  let filtered :=
    if projectOnly ∧ jsTruthy currentProject then
      searchResults.filter fun r => r.projectPath = currentProject.getD []
    else searchResults
  sortByAdjustedDesc filtered

/-- The oversampled `k` requested from the vector store by
`searchConversations`: `queryItems(queryVector, limit * 3)`. -/
def convFetchK (limit : Nat) : Nat := limit * 3

/-- Full `searchConversations` pipeline over a vector-store oracle
(`store k` = the `k` nearest neighbours): fetch `limit * 3` candidates,
rerank, truncate to `limit`. -/
def searchConversations (now : ℤ) (currentProject : Option Str)
    (projectOnly : Bool) (limit : Nat) (store : Nat → List ConvQueryHit) :
    List ConvSearchResult :=
  (searchConversationsRanked now currentProject projectOnly (store (convFetchK limit))).take limit

/-- The spec's `contextBoost` factor: `1.5` when the candidate's context
matches the caller's current context, else `1.0` (for comparison with the
code's `adjustScore`). -/
def contextBoost (currentProject : Option Str) (path : Str) : ℚ :=
  if currentProject = some path then 3/2 else 1

/-! ## Incremental conversation index state
(`loadIndexState` / `rebuildConversationIndex` / `updateConversationIndex`) -/

/-- Per-file bookkeeping in `conversations-state.json`:
`{ mtime, exchangeIds }`. -/
structure FileEntry where
  mtime : Nat
  exchangeIds : List Str
deriving DecidableEq, Repr

/-- `IndexState`: source path → entry, plus the last-update stamp.  The JS
object keyed by path is modelled as a function to `Option`. -/
structure IndexState where
  files : Str → Option FileEntry
  lastUpdate : Str

/-- One conversation log discovered by `scanConversationFiles`, with its
already-parsed record lines. -/
structure ConvFile where
  path : Str
  projectPath : Str
  mtime : Nat
  lines : List (Option ConvMessage)

/-- Environment of one indexing pass: the discoverable files, the current
time stamp, and whether the embedding gateway / vector store calls succeed. -/
structure ConvEnv where
  files : List ConvFile
  now : Str
  embedOk : Bool
  upsertOk : Bool

/-- The exchanges parsed from one discovered file
(`parseConversationFile(filePath, projectPath)`). -/
def fileExchanges (env : ConvEnv) (f : ConvFile) : List ConversationExchange :=
  parseConversationFile env.now (basenameStr f.path) f.path f.projectPath f.lines

/-- Result record of `updateConversationIndex`. -/
structure UpdateResult where
  exchangeCount : Nat
  filesUpdated : Nat
  skipped : Nat
deriving DecidableEq, Repr

/-- Observable outcome of an indexing pass: the propagated result, the
persisted `IndexState` afterwards (unchanged when the pass failed, since
`saveIndexState` runs only after every collaborator call has succeeded), and
the number of embedding-gateway invocations. -/
structure PassOutcome (α : Type) where
  result : Except Unit α
  stateAfter : IndexState
  embedCalls : Nat

/-- `embedBatch`: one gateway invocation; fails when the gateway is down. -/
def embedBatchCall (env : ConvEnv) : Except Unit Unit :=
  if env.embedOk then .ok () else .error ()

/-- The sequence of awaited `upsertItem` calls for `n` items; any failure
propagates. -/
def upsertAll (env : ConvEnv) (n : Nat) : Except Unit Unit :=
  if n = 0 then .ok () else if env.upsertOk then .ok () else .error ()

/-- `rebuildConversationIndex`: reparse every source, then (when any exchange
exists) one `embedBatch` over all texts followed by the upserts, and only
then `saveIndexState(newState)`. -/
def rebuildConversationIndex (env : ConvEnv) (st : IndexState) : PassOutcome Nat :=
  let newFiles : Str → Option FileEntry := fun k =>
    (env.files.find? fun f => f.path = k).map fun f =>
      ⟨f.mtime, (fileExchanges env f).map (·.id)⟩
  let newState : IndexState := ⟨newFiles, env.now⟩
  let total := (env.files.map fun f => (fileExchanges env f).length).sum
  if total = 0 then
    { result := .ok 0, stateAfter := newState, embedCalls := 0 }
  else
    match embedBatchCall env with
    | .error e => { result := .error e, stateAfter := st, embedCalls := 1 }
    | .ok _ =>
      match upsertAll env total with
      | .error e => { result := .error e, stateAfter := st, embedCalls := 1 }
      | .ok _ => { result := .ok total, stateAfter := newState, embedCalls := 1 }

/-- Accumulator of the `updateConversationIndex` loop. -/
structure UpdateAcc where
  files : Str → Option FileEntry
  filesUpdated : Nat
  skipped : Nat
  totalExchanges : Nat
  embedCalls : Nat

/-- One file of the `updateConversationIndex` loop body: a file whose cached
mtime matches is skipped (its cached exchange count is added to the total);
a new or modified file is reparsed, batch-embedded when it has exchanges,
upserted, and recorded under `{ mtime, exchangeIds }`.  A collaborator
failure propagates. -/
def updateFileStep (env : ConvEnv) (f : ConvFile) (acc : UpdateAcc) :
    Except Unit UpdateAcc :=
  match acc.files f.path with
  | some cached =>
    if cached.mtime = f.mtime then
      .ok { acc with
        skipped := acc.skipped + 1
        totalExchanges := acc.totalExchanges + cached.exchangeIds.length }
    else updateProcessFile env f acc
  | none => updateProcessFile env f acc
where
  /-- Process a new or modified file. -/
  updateProcessFile (env : ConvEnv) (f : ConvFile) (acc : UpdateAcc) :
      Except Unit UpdateAcc :=
    let exchanges := fileExchanges env f
    let doCalls : Except Unit Unit :=
      if exchanges.length = 0 then .ok ()
      else match embedBatchCall env with
        | .error e => .error e
        | .ok _ => upsertAll env exchanges.length
    let calls := if exchanges.length = 0 then 0 else 1
    match doCalls with
    | .error e => .error e
    | .ok _ => .ok
        { files := fun k => if k = f.path then some ⟨f.mtime, exchanges.map (·.id)⟩
            else acc.files k
          filesUpdated := acc.filesUpdated + 1
          skipped := acc.skipped
          totalExchanges := acc.totalExchanges + exchanges.length
          embedCalls := acc.embedCalls + calls }

/-- The per-file loop of `updateConversationIndex`: fold `updateFileStep`
over the discoverable files, propagating the first failure. -/
def updateLoop (env : ConvEnv) : List ConvFile → UpdateAcc → Except Unit UpdateAcc
  | [], acc => .ok acc
  | f :: fs, acc =>
    match updateFileStep env f acc with
    | .error e => .error e
    | .ok acc₁ => updateLoop env fs acc₁

/-- Number of embedding-gateway calls the loop has made when it stops
(whether by finishing or by propagating a failure); a failing step has
always attempted exactly one batch call. -/
def updateLoopCalls (env : ConvEnv) : List ConvFile → UpdateAcc → Nat
  | [], acc => acc.embedCalls
  | f :: fs, acc =>
    match updateFileStep env f acc with
    | .error _ => acc.embedCalls + 1
    | .ok acc₁ => updateLoopCalls env fs acc₁

/-- `getConversationIndex` creates the index when it is missing, so the
`isIndexCreated` probe that follows it inside `updateConversationIndex`
always sees an existing index and the full-rebuild fallback branch is
unreachable. -/
def isIndexCreatedAfterGet : Bool := true

/-- `updateConversationIndex`: load the persisted state, walk every
discoverable file through `updateLoop`, prune bookkeeping entries for files
no longer on disk, and persist the refreshed state only after the whole pass
succeeded. -/
def updateConversationIndex (env : ConvEnv) (st : IndexState) : PassOutcome UpdateResult :=
  if isIndexCreatedAfterGet = false then
    let r := rebuildConversationIndex env st
    { result := r.result.map fun n => ⟨n, 0, 0⟩
      stateAfter := r.stateAfter
      embedCalls := r.embedCalls }
  else
    match updateLoop env env.files ⟨st.files, 0, 0, 0, 0⟩ with
    | .error e => { result := .error e, stateAfter := st, embedCalls :=
        updateLoopCalls env env.files ⟨st.files, 0, 0, 0, 0⟩ }
    | .ok acc =>
      let currentPaths := env.files.map (·.path)
      let cleaned : Str → Option FileEntry := fun k =>
        if k ∈ currentPaths then acc.files k else none
      { result := .ok ⟨acc.totalExchanges, acc.filesUpdated, acc.skipped⟩
        stateAfter := ⟨cleaned, env.now⟩
        embedCalls := acc.embedCalls }

/-! ## Memory indexer (`src/plugins/macrodata/src/indexer.ts`) -/

/-- `MemoryItem` of the memory indexer. -/
structure MemoryItem where
  id : Str
  mtype : Str
  content : Str
  source : Str
  sectionLabel : Option Str
  timestamp : Option Str
deriving DecidableEq, Repr

/-- `toString` of a `Nat`, as a JS-style character list. -/
def natStr (n : Nat) : Str := (toString n).data

/-- One parsed record of a journal partition (`{topic, content, timestamp}`);
`JSON.parse` of a malformed line is modelled as `none` where it occurs. -/
structure JournalEntry where
  topic : Str
  content : Str
  timestamp : Str
deriving DecidableEq, Repr

/-- `parseJournalForIndexing`, over the already line-split partitions: each
parsed record of file `file` at line index `i` becomes one `journal` item
with id `journal-<file>-<i>` and content `[<topic>] <content>`. -/
def parseJournalForIndexing (files : List (Str × List (Option JournalEntry))) :
    List MemoryItem :=
  files.flatMap fun fl =>
    fl.2.enum.filterMap fun p =>
      p.2.map fun e =>
        { id := "journal-".data ++ fl.1 ++ "-".data ++ natStr p.1
          mtype := "journal".data
          content := "[".data ++ e.topic ++ "] ".data ++ e.content
          source := fl.1
          sectionLabel := none
          timestamp := some e.timestamp }

/-- `indexJournalEntry`: the single-entry incremental path builds its item id
from the entry timestamp alone (`journal-<timestamp>`) with fixed source
`"journal"`. -/
def indexJournalEntryItem (e : JournalEntry) : MemoryItem :=
  { id := "journal-".data ++ e.timestamp
    mtype := "journal".data
    content := "[".data ++ e.topic ++ "] ".data ++ e.content
    source := "journal".data
    sectionLabel := none
    timestamp := some e.timestamp }

/-- `content.split(/^## /m)` at line granularity: a line starting with
`"## "` opens a new chunk, with that matched prefix removed; the text before
the first heading is chunk 0.  (A file's content is represented as its list
of newline-free lines.) -/
def splitAtHeadings : List Str → List (List Str)
  | [] => [[]]
  | l :: rest =>
    match splitAtHeadings rest with
    | [] => [[]]
    | c :: cs =>
      if "## ".data.isPrefixOf l then [] :: (l.drop 3 :: c) :: cs
      else (l :: c) :: cs

/-- The item built from section chunk `sec` at 1-based index `i`
(`firstLine = section.split("\n")[0]`, `sectionTitle = firstLine.trim()`,
`sectionContent = section.slice(firstLine.length).trim()`; the item is
omitted when the body is empty). -/
def entitySectionItem (ty fname src : Str) (i : Nat) (sec : List Str) :
    List MemoryItem :=
  let firstLine := sec.headD []
  let sectionTitle := strTrim firstLine
  let sectionContent := strTrim ((List.intercalate ['\n'] sec).drop firstLine.length)
  if sectionContent.isEmpty then []
  else
    [{ id := ty ++ "-".data ++ fname ++ "-".data ++ natStr i
       mtype := ty
       content := "## ".data ++ sectionTitle ++ "\n\n".data ++ sectionContent
       source := src
       sectionLabel := some sectionTitle
       timestamp := none }]

/-- The section items of chunks `secs`, numbered from `i`. -/
def entitySectionItems (ty fname src : Str) (i : Nat) :
    List (List Str) → List MemoryItem
  | [] => []
  | sec :: rest =>
    entitySectionItem ty fname src i sec ++ entitySectionItems ty fname src (i + 1) rest

/-- Parse one entity document (its content given as a list of lines) into a
preamble item (omitted when `sections[0].trim()` is empty) plus one item per
`## ` section with non-empty body — the common body of
`parseEntitiesForIndexing`. -/
def parseEntityFileLines (ty fname src : Str) (lines : List Str) : List MemoryItem :=
  match splitAtHeadings lines with
  | [] => []
  | pre :: secs =>
    let preText := strTrim (List.intercalate ['\n'] pre)
    (if preText.isEmpty then []
     else
       [{ id := ty ++ "-".data ++ fname ++ "-preamble".data
          mtype := ty
          content := preText
          source := src
          sectionLabel := some "preamble".data
          timestamp := none }]) ++
    entitySectionItems ty fname src 1 secs

/-- `parseEntitiesForIndexing`: every `.md` document of the subdirectory,
given as `(filename-without-extension, lines)`, with source
`<subdir>/<file>.md`. -/
def parseEntitiesForIndexing (subdir ty : Str)
    (files : List (Str × List Str)) : List MemoryItem :=
  files.flatMap fun fl =>
    parseEntityFileLines ty fl.1 (subdir ++ "/".data ++ fl.1 ++ ".md".data) fl.2

/-- The section items rebuilt by `indexEntityFile`: the file-watch path
duplicates the section-splitting code of `parseEntitiesForIndexing` instead
of calling it, so it is embedded here as its own recursion. -/
def indexEntitySectionItems (ty fname src : Str) (i : Nat) :
    List (List Str) → List MemoryItem
  | [] => []
  | sec :: rest =>
    (let firstLine := sec.headD []
     let sectionTitle := strTrim firstLine
     let sectionContent := strTrim ((List.intercalate ['\n'] sec).drop firstLine.length)
     if sectionContent.isEmpty then []
     else
       [{ id := ty ++ "-".data ++ fname ++ "-".data ++ natStr i
          mtype := ty
          content := "## ".data ++ sectionTitle ++ "\n\n".data ++ sectionContent
          source := src
          sectionLabel := some sectionTitle
          timestamp := none }]) ++
    indexEntitySectionItems ty fname src (i + 1) rest

/-- `indexEntityFile`: re-split one entity file on `## ` headings into a
preamble item plus per-section items, with ids `<type>-<filename>-preamble`
and `<type>-<filename>-<i>` and source `<subdir>/<basename(filePath)>`. -/
def indexEntityFileItems (ty subdir fname : Str) (lines : List Str) : List MemoryItem :=
  match splitAtHeadings lines with
  | [] => []
  | pre :: secs =>
    let src := subdir ++ "/".data ++ fname ++ ".md".data
    let preText := strTrim (List.intercalate ['\n'] pre)
    (if preText.isEmpty then []
     else
       [{ id := ty ++ "-".data ++ fname ++ "-preamble".data
          mtype := ty
          content := preText
          source := src
          sectionLabel := some "preamble".data
          timestamp := none }]) ++
    indexEntitySectionItems ty fname src 1 secs

/-- One item returned by `queryItems` on the memory index, with the metadata
fields that `searchMemory` filters on.  A metadata bag without a `timestamp`
key is `none`. -/
structure MemoryHit where
  mtype : Str
  timestamp : Option Str
  content : Str
  score : ℚ
deriving DecidableEq, Repr

/-- The oversampled `k` requested from the vector store by `searchMemory`:
`queryItems(queryVector, limit * 2)`. -/
def memoryFetchK (limit : Nat) : Nat := limit * 2

/-- The filter predicate of `searchMemory`:
`if (type && meta.type !== type) return false;`
`if (since && meta.timestamp && meta.timestamp < since) return false;`. -/
def memoryKeep (ty since : Option Str) (h : MemoryHit) : Bool :=
  if jsTruthy ty ∧ h.mtype ≠ ty.getD [] then false
  else if jsTruthy since ∧ jsTruthy h.timestamp ∧
      strLt (h.timestamp.getD []) (since.getD []) then false
  else true

/-- The candidate set `searchMemory` fetches before any filtering:
`queryItems(queryVector, limit * 2)` against the store oracle. -/
def memoryCandidates (limit : Nat) (store : Nat → List MemoryHit) : List MemoryHit :=
  store (memoryFetchK limit)

/-- The `filtered` list of `searchMemory`: the filter runs only when a type
or since option is truthy. -/
def memoryFiltered (limit : Nat) (ty since : Option Str)
    (store : Nat → List MemoryHit) : List MemoryHit :=
  let results := memoryCandidates limit store
  if jsTruthy ty ∨ jsTruthy since then results.filter (memoryKeep ty since)
  else results

/-- `searchMemory` after the embedding step: fetch `limit * 2` candidates,
filter, truncate to `limit`. -/
def searchMemory (limit : Nat) (ty since : Option Str)
    (store : Nat → List MemoryHit) : List MemoryHit :=
  (memoryFiltered limit ty since store).take limit

/-! ## Auxiliary definitions used by the statements -/

/-- An entity document assembled from a preamble and a list of
`(headingText, bodyLines)` sections, as its list of lines. -/
def renderEntityDoc (pre : List Str) (secs : List (Str × List Str)) : List Str :=
  pre ++ secs.flatMap fun s => ("## ".data ++ s.1) :: s.2

/-- Number of exchange ids recorded for path `p` in a bookkeeping map. -/
def entryLen (m : Str → Option FileEntry) (p : Str) : Nat :=
  ((m p).map (·.exchangeIds.length)).getD 0

/-- Total exchange count reported for `fs` when every file is skipped. -/
def storedTotal (m : Str → Option FileEntry) (fs : List ConvFile) : Nat :=
  (fs.map fun f => entryLen m f.path).sum

/-- Every file of `fs` has a bookkeeping entry with its current mtime. -/
def allCached (m : Str → Option FileEntry) (fs : List ConvFile) : Prop :=
  ∀ f ∈ fs, ∃ ids, m f.path = some ⟨f.mtime, ids⟩

/-- A conversation log with one genuine user → assistant exchange (for
concrete runs of the indexing passes). -/
def sampleLines : List (Option ConvMessage) :=
  [some ⟨"user".data, some (.str "Please fix the login bug".data),
      some "u-1".data, some "2024-05-01T12:00:00Z".data, some "s-1".data,
      some "/repos/demo".data, some "main".data⟩,
   some ⟨"assistant".data, some (.str "Done: guarded the session refresh.".data),
      some "u-2".data, some "2024-05-01T12:00:30Z".data, some "s-1".data,
      none, none⟩]

/-- One-file environment whose embedding gateway succeeds. -/
def sampleEnv : ConvEnv :=
  { files := [⟨"/logs/s-1.jsonl".data, "/repos/demo".data, 17, sampleLines⟩]
    now := "2024-05-02T00:00:00Z".data
    embedOk := true
    upsertOk := true }

/-- The same environment with a failing embedding gateway. -/
def sampleFailEnv : ConvEnv :=
  { sampleEnv with embedOk := false }

/-- An empty persisted index state. -/
def emptyIndexState : IndexState :=
  ⟨fun _ => none, []⟩

/-! ## Theorems -/

/-- **C4 counterexample.**  The claim requires both search operations to fetch
`K × oversampleFactor` candidates with `oversampleFactor ≥ 3`; at `K = 5` the
memory search requests only `limit * 2 = 10 < 15` nearest neighbours from the
vector store, so its candidate set cannot contain the top `5 × 3`. -/
theorem memory_oversample_below_three : memoryFetchK 5 = 10 ∧ 10 < 5 * 3 := by
  decide

/-- **C4 (amended).**  The conversation search oversamples by a factor of 3
(`queryItems(queryVector, limit * 3)`), satisfying the `≥ 3` bound, but the
memory search oversamples only by a factor of 2
(`queryItems(queryVector, limit * 2)`). -/
theorem fetch_oversample_factors (limit : Nat) :
    convFetchK limit = limit * 3 ∧ memoryFetchK limit = limit * 2 :=
  ⟨rfl, rfl⟩

/-- **C10.**  In `searchMemory` with a `since` floor, a candidate whose
metadata carries no timestamp survives the filter, and any candidate the
filter drops carries a timestamp strictly below `since`. -/
theorem searchMemory_since_filter (limit : Nat) (since : Str)
    (store : Nat → List MemoryHit) (h : MemoryHit)
    (hmem : h ∈ memoryCandidates limit store) :
    (h.timestamp = none → h ∈ memoryFiltered limit none (some since) store) ∧
    (h ∉ memoryFiltered limit none (some since) store →
      ∃ t, h.timestamp = some t ∧ strLt t since = true) := by
  constructor
  · intro hts
    unfold memoryFiltered
    by_cases hsince : since.isEmpty
    · simp [jsTruthy, hsince, hmem]
    · simp only [jsTruthy, hsince, Bool.not_false, Bool.false_or, if_pos]
      refine List.mem_filter.2 ⟨hmem, ?_⟩
      simp [memoryKeep, jsTruthy, hts]
  · intro hdrop
    unfold memoryFiltered at hdrop
    by_cases hsince : since.isEmpty
    · simp [jsTruthy, hsince, hmem] at hdrop
    · simp only [jsTruthy, hsince, Bool.not_false, Bool.false_or, if_pos] at hdrop
      have hkeep : memoryKeep none (some since) h = false := by
        by_contra hne
        exact hdrop (List.mem_filter.2 ⟨hmem, eq_true_of_ne_false hne⟩)
      unfold memoryKeep at hkeep
      split at hkeep
      · next hc => simp [jsTruthy] at hc
      · split at hkeep
        · next hc =>
          obtain ⟨-, htr, hlt⟩ := hc
          cases hts : h.timestamp with
          | none => rw [hts] at htr; simp [jsTruthy] at htr
          | some t =>
            refine ⟨t, rfl, ?_⟩
            rw [hts] at hlt
            simpa using hlt
        · simp at hkeep

/-- **C10 witness.**  A concrete store with one untimed hit: the hit survives
the since filter. -/
theorem searchMemory_since_filter_witness :
    (⟨"journal".data, none, "note".data, 1⟩ : MemoryHit) ∈
      memoryFiltered 1 none (some "2024".data)
        (fun _ => [⟨"journal".data, none, "note".data, 1⟩]) :=
  (searchMemory_since_filter 1 "2024".data
      (fun _ => [⟨"journal".data, none, "note".data, 1⟩])
      ⟨"journal".data, none, "note".data, 1⟩ (by decide)).1 rfl

/-- The duplicated section-splitting loop of `indexEntityFile` produces the
same items as the one inside `parseEntitiesForIndexing`. -/
theorem indexEntitySectionItems_eq (ty fname src : Str) :
    ∀ (i : Nat) (secs : List (List Str)),
      indexEntitySectionItems ty fname src i secs = entitySectionItems ty fname src i secs := by
  intro i secs
  induction secs generalizing i with
  | nil => rfl
  | cons sec rest ih =>
    simp only [indexEntitySectionItems, entitySectionItems, entitySectionItem, ih]

/-- **C5 counterexample.**  The same unchanged journal entry gets different
ids on the two indexing paths: the full rebuild derives
`journal-2024-01-01.jsonl-0` from the file name and line index, while the
single-entry incremental path (`indexJournalEntry`) derives
`journal-2024-01-01T00:00:00Z` from the entry timestamp alone — so the
incremental pass is not a no-op upsert of the rebuilt item. -/
theorem journal_incremental_id_differs :
    (parseJournalForIndexing
        [("2024-01-01.jsonl".data,
          [some ⟨"infra".data, "hello".data, "2024-01-01T00:00:00Z".data⟩])]).map (·.id) =
      ["journal-2024-01-01.jsonl-0".data] ∧
    (indexJournalEntryItem ⟨"infra".data, "hello".data, "2024-01-01T00:00:00Z".data⟩).id =
      "journal-2024-01-01T00:00:00Z".data ∧
    "journal-2024-01-01.jsonl-0".data ≠ "journal-2024-01-01T00:00:00Z".data := by
  refine ⟨by decide, by decide, by decide⟩

/-- **C5 (amended).**  Ids are deterministic within each reader: the journal
reader's ids are built from the file name and line index, the entity readers
agree across the full-rebuild and single-file paths (identical ids and
items), but the single-entry incremental journal path derives its id from the
entry timestamp alone (`journal-<timestamp>`), so the same journal entry
reaches the store under two different ids depending on the indexing path. -/
theorem reader_id_determinism (ty subdir fname file : Str) (lines : List Str)
    (entries : List (Option JournalEntry)) (e : JournalEntry) :
    indexEntityFileItems ty subdir fname lines =
      parseEntityFileLines ty fname (subdir ++ "/".data ++ fname ++ ".md".data) lines ∧
    (indexJournalEntryItem e).id = "journal-".data ++ e.timestamp ∧
    (parseJournalForIndexing [(file, entries)]).map (·.id) =
      entries.enum.filterMap
        (fun p => p.2.map fun _ => "journal-".data ++ file ++ "-".data ++ natStr p.1) := by
  refine ⟨?_, rfl, ?_⟩
  · unfold indexEntityFileItems parseEntityFileLines
    cases splitAtHeadings lines with
    | nil => rfl
    | cons pre secs => simp [indexEntitySectionItems_eq]
  · simp only [parseJournalForIndexing, List.flatMap_cons, List.flatMap_nil,
      List.append_nil, List.map_filterMap]
    congr 1
    funext p
    cases p.2 <;> rfl

/-- **C7.**  Noise user records are ignored: a user record whose extracted
text is noise emits no exchange and leaves the pending user turn untouched;
the literal `<local-command-stdout>ls output</local-command-stdout>` is
noise, as is any text under 10 characters after trimming, any text containing
the `<local-command-stdout>` command-output tag, and any text starting with
the `<system-reminder>` tag. -/
theorem noise_user_records_ignored :
    (∀ now fileBase filePath projectPath projectName st (msg : ConvMessage) c,
      msg.mtype = "user".data → msg.content = some c →
      isNoiseContent (extractUserText c) = true →
      convStep now fileBase filePath projectPath projectName st (some msg) = (st, [])) ∧
    isNoiseContent "<local-command-stdout>ls output</local-command-stdout>".data = true ∧
    (∀ t, (strTrim t).length < 10 → isNoiseContent t = true) ∧
    (∀ t, strIncludes t "<local-command-stdout>".data = true → isNoiseContent t = true) ∧
    (∀ t, strStartsWith t "<system-reminder>".data = true → isNoiseContent t = true) := by
  refine ⟨?_, by decide, ?_, ?_, ?_⟩
  · intro now fileBase filePath projectPath projectName st msg c hty hc hnoise
    obtain ⟨mt, mc, u1, t1, s1, c1, g1⟩ := msg
    simp only at hty hc
    subst hty hc
    simp only [convStep]
    by_cases htr : contentTruthy (some c) = true
    · rw [if_pos ⟨trivial, htr⟩]
      by_cases htool : isToolResult c = true
      · rw [if_pos htool]
      · rw [if_neg htool, if_pos (Or.inr hnoise)]
    · rw [if_neg (fun hh => htr hh.2),
        if_neg (fun hh => absurd hh.1 (by decide))]
  · intro t h
    unfold isNoiseContent
    rw [decide_eq_true h]
    simp
  · intro t h
    unfold isNoiseContent
    rw [h]
    simp
  · intro t h
    unfold isNoiseContent
    rw [h]
    simp

/-- **C7 witness.**  A user record carrying exactly
`<local-command-stdout>ls output</local-command-stdout>`, processed while a
pending user turn is held, emits nothing and keeps that pending turn. -/
theorem noise_user_records_ignored_witness :
    convStep "t".data "b".data "/f".data "/p".data "p".data
      (some (⟨"user".data, some (.str "Please fix the login bug".data), none,
        none, none, none, none⟩, "Please fix the login bug".data))
      (some ⟨"user".data,
        some (.str "<local-command-stdout>ls output</local-command-stdout>".data),
        none, none, none, none, none⟩) =
      (some (⟨"user".data, some (.str "Please fix the login bug".data), none,
        none, none, none, none⟩, "Please fix the login bug".data), []) :=
  noise_user_records_ignored.1 "t".data "b".data "/f".data "/p".data "p".data
    _ _ _ rfl rfl (by decide)

/-- **C3.**  A user record whose content is a block list containing a
tool-result marker never becomes an exchange and never touches the pending
user turn; and the record sequence
`[user:"Fix the bug", user:<tool-result block>, assistant:"Fixed it by adding a mutex"]`
yields exactly the one exchange pairing the first user text with the
assistant reply. -/
theorem tool_result_records_transparent :
    (∀ now fileBase filePath projectPath projectName st (msg : ConvMessage) c,
      msg.mtype = "user".data → msg.content = some c → isToolResult c = true →
      convStep now fileBase filePath projectPath projectName st (some msg) = (st, [])) ∧
    parseConversationFile "2024-05-02T00:00:00Z".data "s-1".data "/logs/s-1.jsonl".data
      "/repos/demo".data
      [some ⟨"user".data, some (.str "Fix the bug".data), some "u-1".data,
         some "2024-05-01T12:00:00Z".data, some "s-1".data, some "/repos/demo".data,
         some "main".data⟩,
       some ⟨"user".data, some (.blocks [⟨"tool_result".data, none, some "toolu_1".data⟩]),
         some "u-2".data, some "2024-05-01T12:00:10Z".data, some "s-1".data, none, none⟩,
       some ⟨"assistant".data, some (.str "Fixed it by adding a mutex".data), some "u-3".data,
         some "2024-05-01T12:00:20Z".data, some "s-1".data, none, none⟩] =
      [{ id := "conv-s-1-u-1".data
         userPrompt := "Fix the bug".data
         assistantSummary := "Fixed it by adding a mutex".data
         project := "demo".data
         projectPath := "/repos/demo".data
         branch := some "main".data
         timestamp := "2024-05-01T12:00:00Z".data
         sessionId := "s-1".data
         sessionPath := "/logs/s-1.jsonl".data
         messageUuid := "u-1".data }] := by
  refine ⟨?_, by decide⟩
  intro now fileBase filePath projectPath projectName st msg c hty hc htool
  obtain ⟨mt, mc, u1, t1, s1, c1, g1⟩ := msg
  simp only at hty hc
  subst hty hc
  simp only [convStep]
  by_cases htr : contentTruthy (some c) = true
  · rw [if_pos ⟨trivial, htr⟩, if_pos htool]
  · rw [if_neg (fun hh => htr hh.2),
      if_neg (fun hh => absurd hh.1 (by decide))]

/-- **C3 witness.**  A tool-result user record processed while a pending user
turn is held emits nothing and keeps the pending turn. -/
theorem tool_result_records_transparent_witness :
    convStep "t".data "b".data "/f".data "/p".data "p".data
      (some (⟨"user".data, some (.str "Fix the bug".data), none, none, none,
        none, none⟩, "Fix the bug".data))
      (some ⟨"user".data, some (.blocks [⟨"tool_result".data, none, none⟩]),
        none, none, none, none, none⟩) =
      (some (⟨"user".data, some (.str "Fix the bug".data), none, none, none,
        none, none⟩, "Fix the bug".data), []) :=
  tool_result_records_transparent.1 "t".data "b".data "/f".data "/p".data "p".data
    _ _ _ rfl rfl (by decide)

/-- Membership in the stable insertion. -/
theorem mem_insertByAdjusted {x y : ConvSearchResult} {l : List ConvSearchResult} :
    y ∈ insertByAdjusted x l ↔ y = x ∨ y ∈ l := by
  induction l with
  | nil => simp [insertByAdjusted]
  | cons z zs ih =>
    unfold insertByAdjusted
    split
    · simp
    · simp only [List.mem_cons, ih]
      tauto

/-- Inserting into a descending-sorted list keeps it descending-sorted. -/
theorem pairwise_insertByAdjusted {x : ConvSearchResult} {l : List ConvSearchResult}
    (h : l.Pairwise fun a b => b.adjustedScore ≤ a.adjustedScore) :
    (insertByAdjusted x l).Pairwise fun a b => b.adjustedScore ≤ a.adjustedScore := by
  induction l with
  | nil => simp [insertByAdjusted]
  | cons z zs ih =>
    rw [List.pairwise_cons] at h
    obtain ⟨hz, hzs⟩ := h
    unfold insertByAdjusted
    split
    · next hle =>
      refine List.pairwise_cons.2 ⟨?_, List.pairwise_cons.2 ⟨hz, hzs⟩⟩
      intro b hb
      rcases List.mem_cons.1 hb with rfl | hb
      · exact hle
      · exact (hz b hb).trans hle
    · next hgt =>
      refine List.pairwise_cons.2 ⟨?_, ih hzs⟩
      intro b hb
      rcases mem_insertByAdjusted.1 hb with rfl | hb
      · exact le_of_lt (lt_of_not_le hgt)
      · exact hz b hb

/-- The stable descending sort is descending-sorted. -/
theorem sortByAdjustedDesc_pairwise (l : List ConvSearchResult) :
    (sortByAdjustedDesc l).Pairwise fun a b => b.adjustedScore ≤ a.adjustedScore := by
  unfold sortByAdjustedDesc
  induction l with
  | nil => simp
  | cons x xs ih => exact pairwise_insertByAdjusted ih

/-- The ranked output of the conversation search is descending-sorted by
adjusted score. -/
theorem searchConversationsRanked_pairwise (now : ℤ) (ctx : Option Str)
    (po : Bool) (hits : List ConvQueryHit) :
    (searchConversationsRanked now ctx po hits).Pairwise
      fun a b => b.adjustedScore ≤ a.adjustedScore := by
  unfold searchConversationsRanked
  exact sortByAdjustedDesc_pairwise _

/-- Every time-weight bucket value is positive. -/
theorem getTimeWeight_pos (now ts : ℤ) : 0 < getTimeWeight now ts := by
  simp only [getTimeWeight]
  split_ifs <;> norm_num

/-- **C1.**  The adjusted score of every candidate is
`rawSimilarity × timeWeight × contextBoost` with the claimed bucket values
(ages measured against `dayMs` milliseconds per day) and a `1.5` boost
exactly when the candidate's project path equals the caller's context
(assuming the caller's context, when provided, is a non-empty path); and the
spec's reranking example holds: raw `0.80` at age 200 days without context
match (adjusted `0.40`) ranks below raw `0.75` at age 2 days with context
match (adjusted `1.125`). -/
theorem adjusted_score_formula :
    (∀ (now : ℤ) (ctx : Option Str) (hq : ConvQueryHit), ctx ≠ some [] →
      adjustScore now ctx hq =
        hq.score * getTimeWeight now hq.timestampMs * contextBoost ctx hq.projectPath) ∧
    (∀ (now ts : ℤ),
      (now - ts < 7 * dayMs → getTimeWeight now ts = 1) ∧
      (7 * dayMs ≤ now - ts → now - ts < 30 * dayMs → getTimeWeight now ts = 9/10) ∧
      (30 * dayMs ≤ now - ts → now - ts < 90 * dayMs → getTimeWeight now ts = 7/10) ∧
      (90 * dayMs ≤ now - ts → now - ts < 365 * dayMs → getTimeWeight now ts = 1/2) ∧
      (365 * dayMs ≤ now - ts → getTimeWeight now ts = 3/10)) ∧
    searchConversationsRanked (1000 * dayMs) (some "/repos/demo".data) false
      [⟨4/5, "/other".data, 800 * dayMs⟩, ⟨3/4, "/repos/demo".data, 998 * dayMs⟩] =
      [⟨"/repos/demo".data, 998 * dayMs, 3/4, 9/8⟩,
       ⟨"/other".data, 800 * dayMs, 4/5, 2/5⟩] := by
  refine ⟨?_, ?_, ?_⟩
  · intro now ctx hq hctx
    cases ctx with
    | none => simp [adjustScore, contextBoost, jsTruthy]
    | some cp =>
      have hcp : ¬cp.isEmpty = true := by
        intro hh
        exact hctx (congrArg some (List.isEmpty_iff.1 hh))
      by_cases hp : hq.projectPath = cp
      · rw [show contextBoost (some cp) hq.projectPath = 3/2 by
            simp [contextBoost, hp]]
        simp only [adjustScore, Option.getD_some]
        rw [if_pos ⟨by simp [jsTruthy, hcp], hp⟩]
      · rw [show contextBoost (some cp) hq.projectPath = 1 by
            unfold contextBoost
            exact if_neg (fun hh => hp (Option.some.inj hh).symm)]
        simp only [adjustScore, Option.getD_some]
        rw [if_neg (fun hh => hp hh.2), mul_one]
  · intro now ts
    refine ⟨fun h1 => ?_, fun h1 h2 => ?_, fun h1 h2 => ?_, fun h1 h2 => ?_,
      fun h1 => ?_⟩ <;>
      · simp only [getTimeWeight, dayMs] at *
        split_ifs <;> first | rfl | omega
  · have hA : adjustScore (1000 * dayMs) (some "/repos/demo".data)
        ⟨4/5, "/other".data, 800 * dayMs⟩ = 2/5 := by
      simp only [adjustScore, Option.getD_some]
      rw [if_neg (by decide),
        show getTimeWeight (1000 * dayMs) (800 * dayMs) = 1/2 by
          simp only [getTimeWeight, dayMs]
          norm_num]
      norm_num
    have hB : adjustScore (1000 * dayMs) (some "/repos/demo".data)
        ⟨3/4, "/repos/demo".data, 998 * dayMs⟩ = 9/8 := by
      simp only [adjustScore, Option.getD_some]
      rw [if_pos (by decide),
        show getTimeWeight (1000 * dayMs) (998 * dayMs) = 1 by
          simp only [getTimeWeight, dayMs]
          norm_num]
      norm_num
    simp only [searchConversationsRanked, List.map_cons, List.map_nil, toConvResult,
      hA, hB]
    rw [if_neg (by simp)]
    simp only [sortByAdjustedDesc, List.foldr, insertByAdjusted]
    rw [if_neg (by norm_num)]

/-- **C1 witness.**  The formula instantiated at a concrete candidate with a
provided context. -/
theorem adjusted_score_formula_witness :
    adjustScore 0 (some "/p".data) ⟨1, "/p".data, 0⟩ =
      (1 : ℚ) * getTimeWeight 0 0 * contextBoost (some "/p".data) "/p".data :=
  adjusted_score_formula.1 0 (some "/p".data) ⟨1, "/p".data, 0⟩ (by decide)

/-- **C9 counterexample.**  At rawSimilarity `0` the context-matching
candidate does not rank strictly above the non-matching one: both adjusted
scores are `0 × … = 0`, and the stable sort keeps the non-matching candidate
(first in store order) in front of the matching one. -/
theorem context_boost_zero_similarity :
    adjustScore 0 (some "/p".data) ⟨0, "/p".data, 0⟩ =
      adjustScore 0 (some "/p".data) ⟨0, "/q".data, 0⟩ ∧
    searchConversationsRanked 0 (some "/p".data) false
      [⟨0, "/q".data, 0⟩, ⟨0, "/p".data, 0⟩] =
      [⟨"/q".data, 0, 0, 0⟩, ⟨"/p".data, 0, 0, 0⟩] := by
  have h1 : adjustScore 0 (some "/p".data) ⟨0, "/p".data, 0⟩ = 0 := by
    simp only [adjustScore, Option.getD_some]
    rw [if_pos (by decide)]
    norm_num
  have h2 : adjustScore 0 (some "/p".data) ⟨0, "/q".data, 0⟩ = 0 := by
    simp only [adjustScore, Option.getD_some]
    rw [if_neg (by decide)]
    norm_num
  refine ⟨h1.trans h2.symm, ?_⟩
  simp only [searchConversationsRanked, List.map_cons, List.map_nil, toConvResult,
    h1, h2]
  rw [if_neg (by simp)]
  simp only [sortByAdjustedDesc, List.foldr, insertByAdjusted]
  rw [if_pos (le_refl _)]

/-- **C9 (amended).**  For two candidates with equal **positive**
rawSimilarity and equal time-weight bucket, the one whose project path equals
the caller's (non-empty) current context gets the strictly larger adjusted
score, and therefore appears strictly earlier at any positions the two occupy
in the ranked output. -/
theorem context_boost_strict_rank (now : ℤ) (cp : Str) (a b : ConvQueryHit)
    (hits : List ConvQueryHit) (i j : ℕ)
    (hi : (searchConversationsRanked now (some cp) false hits)[i]? =
      some (toConvResult now (some cp) a))
    (hj : (searchConversationsRanked now (some cp) false hits)[j]? =
      some (toConvResult now (some cp) b))
    (hcp : cp ≠ [])
    (hs : b.score = a.score) (hpos : 0 < a.score)
    (hw : getTimeWeight now b.timestampMs = getTimeWeight now a.timestampMs)
    (ha : a.projectPath = cp) (hb : b.projectPath ≠ cp) :
    adjustScore now (some cp) b < adjustScore now (some cp) a ∧ i < j := by
  have hcpb : ¬cp.isEmpty = true := by
    intro hh
    exact hcp (List.isEmpty_iff.1 hh)
  have hlt : adjustScore now (some cp) b < adjustScore now (some cp) a := by
    simp only [adjustScore, Option.getD_some]
    rw [if_neg (fun hh => hb hh.2), if_pos ⟨by simp [jsTruthy, hcpb], ha⟩]
    rw [hs, hw]
    exact lt_mul_of_one_lt_right
      (mul_pos hpos (getTimeWeight_pos now a.timestampMs)) (by norm_num)
  refine ⟨hlt, ?_⟩
  obtain ⟨hilen, hieq⟩ := List.getElem?_eq_some.1 hi
  obtain ⟨hjlen, hjeq⟩ := List.getElem?_eq_some.1 hj
  by_contra hij
  push_neg at hij
  rcases Nat.lt_or_ge j i with hji | hji
  · have hpw := List.pairwise_iff_getElem.1
      (searchConversationsRanked_pairwise now (some cp) false hits) j i hjlen hilen hji
    rw [hieq, hjeq] at hpw
    exact absurd hpw (not_le.2 hlt)
  · have hij' : i = j := le_antisymm hji hij
    subst hij'
    rw [hieq] at hjeq
    have : adjustScore now (some cp) a = adjustScore now (some cp) b :=
      congrArg ConvSearchResult.adjustedScore hjeq
    exact absurd this (ne_of_gt hlt)

/-- **C9 witness.**  Two hits with rawSimilarity 1 and equal age; the
context-matching one is ranked first (position 0 before position 1). -/
theorem context_boost_strict_rank_witness :
    adjustScore 0 (some "/p".data) ⟨1, "/q".data, 0⟩ <
      adjustScore 0 (some "/p".data) ⟨1, "/p".data, 0⟩ ∧ (0 : ℕ) < 1 := by
  have hA : adjustScore 0 (some "/p".data) ⟨1, "/p".data, 0⟩ = 3/2 := by
    simp only [adjustScore, Option.getD_some]
    rw [if_pos (by decide),
      show getTimeWeight 0 0 = 1 by
        simp only [getTimeWeight, dayMs]
        norm_num]
    norm_num
  have hB : adjustScore 0 (some "/p".data) ⟨1, "/q".data, 0⟩ = 1 := by
    simp only [adjustScore, Option.getD_some]
    rw [if_neg (by decide),
      show getTimeWeight 0 0 = 1 by
        simp only [getTimeWeight, dayMs]
        norm_num]
    norm_num
  have hlist : searchConversationsRanked 0 (some "/p".data) false
      [⟨1, "/q".data, 0⟩, ⟨1, "/p".data, 0⟩] =
      [⟨"/p".data, 0, 1, 3/2⟩, ⟨"/q".data, 0, 1, 1⟩] := by
    simp only [searchConversationsRanked, List.map_cons, List.map_nil, toConvResult,
      hA, hB]
    rw [if_neg (by simp)]
    simp only [sortByAdjustedDesc, List.foldr, insertByAdjusted]
    rw [if_neg (by norm_num)]
  exact context_boost_strict_rank 0 "/p".data ⟨1, "/p".data, 0⟩ ⟨1, "/q".data, 0⟩
    [⟨1, "/q".data, 0⟩, ⟨1, "/p".data, 0⟩] 0 1
    (by rw [hlist]; simp only [List.getElem?_cons_zero, Option.some.injEq]
        simp only [toConvResult, hA])
    (by rw [hlist]; simp only [List.getElem?_cons_succ, List.getElem?_cons_zero,
          Option.some.injEq]
        simp only [toConvResult, hB])
    (by decide) rfl (by norm_num) rfl rfl (by decide)

/-- A non-heading line joins the current first chunk of the split. -/
theorem splitAtHeadings_cons_plain (l : Str) (t : List Str) (c : List Str)
    (cs : List (List Str))
    (hl : "## ".data.isPrefixOf l = false) (ht : splitAtHeadings t = c :: cs) :
    splitAtHeadings (l :: t) = (l :: c) :: cs := by
  rw [splitAtHeadings, ht]
  simp [hl]

/-- A heading line closes the current chunk and opens a new one with the
matched `"## "` prefix removed. -/
theorem splitAtHeadings_cons_heading (l : Str) (t : List Str) (c : List Str)
    (cs : List (List Str))
    (hl : "## ".data.isPrefixOf l = true) (ht : splitAtHeadings t = c :: cs) :
    splitAtHeadings (l :: t) = [] :: (l.drop 3 :: c) :: cs := by
  rw [splitAtHeadings, ht]
  simp [hl]

/-- Prepending non-heading lines extends the first chunk of the split. -/
theorem splitAtHeadings_append (ls t : List Str) (c : List Str)
    (cs : List (List Str))
    (hns : ∀ l ∈ ls, "## ".data.isPrefixOf l = false)
    (ht : splitAtHeadings t = c :: cs) :
    splitAtHeadings (ls ++ t) = (ls ++ c) :: cs := by
  induction ls with
  | nil => simpa using ht
  | cons l ls ih =>
    have hl : "## ".data.isPrefixOf l = false := hns l (List.mem_cons_self _ _)
    have ih' := ih fun x hx => hns x (List.mem_cons_of_mem _ hx)
    rw [List.cons_append, splitAtHeadings_cons_plain l _ _ _ hl ih',
      List.cons_append]

/-- Splitting the rendered section blocks yields an empty preamble chunk and
one chunk per section, each headed by its heading text. -/
theorem splitAtHeadings_flatMap (secs : List (Str × List Str))
    (hb : ∀ s ∈ secs, ∀ l ∈ s.2, "## ".data.isPrefixOf l = false) :
    splitAtHeadings (secs.flatMap fun s => ("## ".data ++ s.1) :: s.2) =
      [] :: secs.map fun s => s.1 :: s.2 := by
  induction secs with
  | nil => rfl
  | cons s rest ih =>
    have ih' := ih fun x hx => hb x (List.mem_cons_of_mem _ hx)
    have hmid := splitAtHeadings_append s.2 _ _ _
      (fun l hl => hb s (List.mem_cons_self _ _) l hl) ih'
    rw [List.append_nil] at hmid
    rw [List.flatMap_cons, List.cons_append,
      splitAtHeadings_cons_heading _ _ _ _
        (List.isPrefixOf_iff_prefix.2 (List.prefix_append _ _)) hmid,
      show ("## ".data ++ s.1).drop 3 = s.1 from rfl, List.map_cons]

/-- `List.intercalate` unfolds one separator at a time. -/
theorem intercalate_newline_cons (x : Str) (b : List Str) (hb : b ≠ []) :
    List.intercalate ['\n'] (x :: b) = x ++ '\n' :: List.intercalate ['\n'] b := by
  cases b with
  | nil => exact absurd rfl hb
  | cons y ys =>
    simp [List.intercalate, List.intersperse_cons_cons]

/-- Leading newlines are stripped by the trim. -/
theorem strTrim_newline_cons (s : Str) : strTrim ('\n' :: s) = strTrim s := by
  unfold strTrim
  rw [List.dropWhile_cons, if_pos (by decide)]

/-- The item produced for one section chunk, in terms of the section's body
lines alone. -/
theorem entitySectionItem_cons (ty f src : Str) (i : Nat) (h : Str)
    (b : List Str) :
    entitySectionItem ty f src i (h :: b) =
      if (strTrim (List.intercalate ['\n'] b)).isEmpty then []
      else
        [{ id := ty ++ "-".data ++ f ++ "-".data ++ natStr i
           mtype := ty
           content := "## ".data ++ strTrim h ++ "\n\n".data ++
             strTrim (List.intercalate ['\n'] b)
           source := src
           sectionLabel := some (strTrim h)
           timestamp := none }] := by
  unfold entitySectionItem
  cases b with
  | nil =>
    simp [List.intercalate, List.intersperse, List.drop_length, strTrim]
  | cons y ys =>
    have hlong : List.intercalate ['\n'] (h :: y :: ys) =
        h ++ '\n' :: List.intercalate ['\n'] (y :: ys) :=
      intercalate_newline_cons h (y :: ys) (by simp)
    simp only [List.headD_cons, hlong, List.drop_left, strTrim_newline_cons]

/-- Labels and count of the section items over rendered section chunks. -/
theorem entitySectionItems_map (ty f src : Str) :
    ∀ (i : Nat) (secs : List (Str × List Str)),
      (∀ s ∈ secs, (strTrim (List.intercalate ['\n'] s.2)).isEmpty = false) →
      (entitySectionItems ty f src i (secs.map fun s => s.1 :: s.2)).map
          (·.sectionLabel) =
        secs.map (fun s => some (strTrim s.1)) ∧
      (entitySectionItems ty f src i (secs.map fun s => s.1 :: s.2)).length =
        secs.length := by
  intro i secs
  induction secs generalizing i with
  | nil => intro _; exact ⟨rfl, rfl⟩
  | cons s rest ih =>
    intro hb
    have hs := hb s (List.mem_cons_self _ _)
    have ih' := ih (i + 1) fun x hx => hb x (List.mem_cons_of_mem _ hx)
    refine ⟨?_, ?_⟩
    · simp [entitySectionItems, entitySectionItem_cons, hs, ih'.1]
    · simp [entitySectionItems, entitySectionItem_cons, hs, ih'.2]

/-- **C6.**  An entity document with `N` second-level headings, each with a
non-empty (after trimming) body, parses into exactly `N` section items plus
one preamble item exactly when the preamble text is non-empty after trimming;
the section labels are the heading texts in the original order. -/
theorem entity_section_split_roundtrip (ty fname src : Str)
    (pre : List Str) (secs : List (Str × List Str))
    (hpre : ∀ l ∈ pre, "## ".data.isPrefixOf l = false)
    (hsec : ∀ s ∈ secs, (∀ l ∈ s.2, "## ".data.isPrefixOf l = false) ∧
      (strTrim (List.intercalate ['\n'] s.2)).isEmpty = false ∧
      strTrim s.1 = s.1) :
    (parseEntityFileLines ty fname src (renderEntityDoc pre secs)).map
        (·.sectionLabel) =
      (if (strTrim (List.intercalate ['\n'] pre)).isEmpty then []
       else [some "preamble".data]) ++ secs.map (fun s => some s.1) ∧
    (parseEntityFileLines ty fname src (renderEntityDoc pre secs)).length =
      (if (strTrim (List.intercalate ['\n'] pre)).isEmpty then 0 else 1) +
        secs.length := by
  have hsplit : splitAtHeadings (renderEntityDoc pre secs) =
      pre :: secs.map (fun s => s.1 :: s.2) := by
    have h1 := splitAtHeadings_flatMap secs fun s hs => (hsec s hs).1
    have h2 := splitAtHeadings_append pre _ _ _ hpre h1
    rw [List.append_nil] at h2
    exact h2
  obtain ⟨hlabels, hlen⟩ :=
    entitySectionItems_map ty fname src 1 secs fun s hs => (hsec s hs).2.1
  have hlabels' : (entitySectionItems ty fname src 1
      (secs.map fun s => s.1 :: s.2)).map (·.sectionLabel) =
      secs.map fun s => some s.1 := by
    rw [hlabels]
    exact List.map_congr_left fun s hs => congrArg some ((hsec s hs).2.2)
  unfold parseEntityFileLines
  rw [hsplit]
  by_cases hp : (strTrim (List.intercalate ['\n'] pre)).isEmpty
  · simp only [hp, if_true, List.map_append, List.length_append, hlabels', hlen]
    simp [hlabels', hlen]
  · simp only [hp, if_false, List.map_append, List.length_append]
    simp only [Bool.not_eq_true] at hp
    simp [hp, hlabels', hlen]

/-- **C6 witness.**  A two-section document with a non-empty preamble yields
the preamble label followed by the two heading labels in order. -/
theorem entity_section_split_roundtrip_witness :
    (parseEntityFileLines "person".data "ada".data "people/ada.md".data
        (renderEntityDoc ["Intro line".data]
          [("Alpha".data, ["alpha body".data]),
           ("Beta".data, ["beta body".data])])).map (·.sectionLabel) =
      [some "preamble".data, some "Alpha".data, some "Beta".data] :=
  (entity_section_split_roundtrip "person".data "ada".data "people/ada.md".data
    ["Intro line".data]
    [("Alpha".data, ["alpha body".data]), ("Beta".data, ["beta body".data])]
    (by decide) (by decide)).1

/-- A file whose cached entry matches its mtime is skipped. -/
theorem updateFileStep_cached (env : ConvEnv) (f : ConvFile) (acc : UpdateAcc)
    (ids : List Str) (hf : acc.files f.path = some ⟨f.mtime, ids⟩) :
    updateFileStep env f acc = .ok { acc with
      skipped := acc.skipped + 1
      totalExchanges := acc.totalExchanges + ids.length } := by
  rw [updateFileStep, hf]
  dsimp only
  rw [if_pos rfl]

/-- When every file still matches its cached mtime, the update loop skips
everything: no map change, no embedding call, and the reported total is the
sum of the cached id-list lengths. -/
theorem updateLoop_all_cached (env : ConvEnv) :
    ∀ (fs : List ConvFile) (acc : UpdateAcc),
      allCached acc.files fs →
      updateLoop env fs acc = .ok
        { files := acc.files
          filesUpdated := acc.filesUpdated
          skipped := acc.skipped + fs.length
          totalExchanges := acc.totalExchanges + storedTotal acc.files fs
          embedCalls := acc.embedCalls } := by
  intro fs
  induction fs with
  | nil =>
    intro acc _
    simp [updateLoop, storedTotal]
  | cons f fs ih =>
    intro acc hall
    obtain ⟨ids, hf⟩ := hall f (List.mem_cons_self _ _)
    rw [updateLoop, updateFileStep_cached env f acc ids hf]
    try dsimp only
    have hrec := ih
      { acc with
        skipped := acc.skipped + 1
        totalExchanges := acc.totalExchanges + ids.length }
      (fun x hx => hall x (List.mem_cons_of_mem _ hx))
    rw [hrec]
    have h1 : storedTotal acc.files (f :: fs) =
        ids.length + storedTotal acc.files fs := by
      rw [storedTotal, List.map_cons, List.sum_cons, ← storedTotal]
      simp [entryLen, hf]
    simp only [Except.ok.injEq, UpdateAcc.mk.injEq, h1, List.length_cons]
    refine ⟨trivial, trivial, by omega, by omega, trivial⟩

/-- What one successfully processed (new or modified) file contributes. -/
theorem updateProcessFile_ok (env : ConvEnv) (f : ConvFile)
    (acc acc₁ : UpdateAcc)
    (h : updateFileStep.updateProcessFile env f acc = .ok acc₁) :
    (∀ k, k ≠ f.path → acc₁.files k = acc.files k) ∧
    (∃ ids, acc₁.files f.path = some ⟨f.mtime, ids⟩) ∧
    acc₁.totalExchanges = acc.totalExchanges + entryLen acc₁.files f.path := by
  rw [updateFileStep.updateProcessFile] at h
  try dsimp only at h
  split at h
  · exact absurd h (by simp)
  · injection h with h1
    subst h1
    refine ⟨fun k hk => if_neg hk, ⟨(fileExchanges env f).map (·.id), if_pos rfl⟩, ?_⟩
    dsimp only
    simp [entryLen]

/-- What one successful `updateFileStep` guarantees: other paths untouched,
this path recorded with the current mtime, the total advanced by exactly the
recorded length. -/
theorem updateFileStep_ok (env : ConvEnv) (f : ConvFile) (acc acc₁ : UpdateAcc)
    (h : updateFileStep env f acc = .ok acc₁) :
    (∀ k, k ≠ f.path → acc₁.files k = acc.files k) ∧
    (∃ ids, acc₁.files f.path = some ⟨f.mtime, ids⟩) ∧
    acc₁.totalExchanges = acc.totalExchanges + entryLen acc₁.files f.path := by
  rw [updateFileStep] at h
  cases hf : acc.files f.path with
  | some cached =>
    rw [hf] at h
    dsimp only at h
    by_cases hm : cached.mtime = f.mtime
    · rw [if_pos hm] at h
      injection h with h1
      subst h1
      refine ⟨fun k hk => rfl, ⟨cached.exchangeIds, ?_⟩, ?_⟩
      · dsimp only
        rw [hf, ← hm]
      · dsimp only
        simp [entryLen, hf]
    · rw [if_neg hm] at h
      exact updateProcessFile_ok env f acc acc₁ h
  | none =>
    rw [hf] at h
    dsimp only at h
    exact updateProcessFile_ok env f acc acc₁ h

/-- Invariant of a successful update-loop run: untouched paths keep their old
entries; under path uniqueness every processed file ends with an entry
carrying its current mtime, and the reported total is the accumulator plus
the per-file stored lengths. -/
theorem updateLoop_ok_spec (env : ConvEnv) :
    ∀ (fs : List ConvFile) (acc acc' : UpdateAcc),
      updateLoop env fs acc = .ok acc' →
      (∀ k, (∀ g ∈ fs, g.path ≠ k) → acc'.files k = acc.files k) ∧
      ((fs.map (·.path)).Nodup →
        (∀ g ∈ fs, ∃ ids, acc'.files g.path = some ⟨g.mtime, ids⟩) ∧
        acc'.totalExchanges = acc.totalExchanges + storedTotal acc'.files fs) := by
  intro fs
  induction fs with
  | nil =>
    intro acc acc' h
    simp only [updateLoop, Except.ok.injEq] at h
    subst h
    refine ⟨fun k _ => rfl, fun _ => ⟨fun g hg => absurd hg (List.not_mem_nil g), ?_⟩⟩
    simp [storedTotal]
  | cons f fs ih =>
    intro acc acc' h
    rw [updateLoop] at h
    cases hstep : updateFileStep env f acc with
    | error e =>
      rw [hstep] at h
      simp at h
    | ok acc₁ =>
      rw [hstep] at h
      replace h : updateLoop env fs acc₁ = .ok acc' := h
      obtain ⟨hframe, hrest⟩ := ih acc₁ acc' h
      obtain ⟨hsf, ⟨ids₁, hids₁⟩, htot₁⟩ := updateFileStep_ok env f acc acc₁ hstep
      refine ⟨?_, ?_⟩
      · intro k hk
        rw [hframe k fun g hg => hk g (List.mem_cons_of_mem _ hg)]
        exact hsf k (Ne.symm (hk f (List.mem_cons_self _ _)))
      · intro hnd
        rw [List.map_cons, List.nodup_cons] at hnd
        obtain ⟨hnd1, hnd2⟩ := hnd
        obtain ⟨hex, htot⟩ := hrest hnd2
        have hfp : acc'.files f.path = acc₁.files f.path :=
          hframe f.path fun g hg hgg =>
            hnd1 (hgg ▸ List.mem_map_of_mem (·.path) hg)
        refine ⟨?_, ?_⟩
        · intro g hg
          rcases List.mem_cons.1 hg with rfl | hg
          · exact ⟨ids₁, by rw [hfp, hids₁]⟩
          · exact hex g hg
        · rw [storedTotal, List.map_cons, List.sum_cons, ← storedTotal]
          have hel : entryLen acc'.files f.path = entryLen acc₁.files f.path := by
            rw [entryLen, entryLen, hfp]
          rw [hel, htot, htot₁]
          omega

/-- `storedTotal` only depends on the entries at the files' paths. -/
theorem storedTotal_congr (m₁ m₂ : Str → Option FileEntry) (fs : List ConvFile)
    (h : ∀ f ∈ fs, m₁ f.path = m₂ f.path) :
    storedTotal m₁ fs = storedTotal m₂ fs := by
  unfold storedTotal
  congr 1
  exact List.map_congr_left fun f hf => by rw [entryLen, entryLen, h f hf]

/-- After a successful incremental update, every discoverable file has a
bookkeeping entry at its current mtime and the stored per-file lengths sum to
the reported exchange count. -/
theorem updateConversationIndex_ok_spec (env : ConvEnv) (st : IndexState)
    (r : UpdateResult)
    (hnd : (env.files.map (·.path)).Nodup)
    (hok : (updateConversationIndex env st).result = .ok r) :
    allCached (updateConversationIndex env st).stateAfter.files env.files ∧
    storedTotal (updateConversationIndex env st).stateAfter.files env.files =
      r.exchangeCount := by
  unfold updateConversationIndex at hok ⊢
  rw [if_neg (by decide)] at hok ⊢
  generalize hloop : updateLoop env env.files ⟨st.files, 0, 0, 0, 0⟩ = lr at hok ⊢
  cases lr with
  | error e =>
    simp at hok
  | ok acc =>
    obtain ⟨hframe, hrest⟩ := updateLoop_ok_spec env env.files _ _ hloop
    obtain ⟨hex, htot⟩ := hrest hnd
    dsimp only at hok ⊢
    have hmem : ∀ f ∈ env.files, f.path ∈ env.files.map (·.path) :=
      fun f hf => List.mem_map_of_mem (·.path) hf
    have hclean : ∀ f ∈ env.files,
        (fun k => if k ∈ env.files.map (·.path) then acc.files k else none) f.path =
          acc.files f.path :=
      fun f hf => if_pos (hmem f hf)
    constructor
    · intro f hf
      obtain ⟨ids, hids⟩ := hex f hf
      exact ⟨ids, by rw [hclean f hf, hids]⟩
    · rw [storedTotal_congr _ acc.files env.files hclean]
      have hr : r = ⟨acc.totalExchanges, acc.filesUpdated, acc.skipped⟩ := by
        cases hok
        rfl
      rw [hr]
      dsimp only
      rw [htot]
      dsimp only at htot ⊢
      omega

/-- An update pass over a fully cached state skips every file, makes no
embedding call, and reports the stored total. -/
theorem updateConversationIndex_all_cached (env : ConvEnv) (st : IndexState)
    (hall : allCached st.files env.files) :
    (updateConversationIndex env st).result =
      .ok ⟨storedTotal st.files env.files, 0, env.files.length⟩ ∧
    (updateConversationIndex env st).embedCalls = 0 := by
  have hloop := updateLoop_all_cached env env.files ⟨st.files, 0, 0, 0, 0⟩ hall
  simp only [updateConversationIndex]
  rw [if_neg (by decide), hloop]
  dsimp only
  refine ⟨?_, rfl⟩
  simp

/-- **C2.**  If an incremental update succeeds and no source changes
afterwards, the next update reports the same total exchange count, skips
every known file, updates none, and makes zero embedding-gateway calls. -/
theorem update_idempotent_when_unchanged (env : ConvEnv) (st : IndexState)
    (r : UpdateResult)
    (hnd : (env.files.map (·.path)).Nodup)
    (hok : (updateConversationIndex env st).result = .ok r) :
    (updateConversationIndex env
        (updateConversationIndex env st).stateAfter).result =
      .ok ⟨r.exchangeCount, 0, env.files.length⟩ ∧
    (updateConversationIndex env
        (updateConversationIndex env st).stateAfter).embedCalls = 0 := by
  obtain ⟨hall, htot⟩ := updateConversationIndex_ok_spec env st r hnd hok
  obtain ⟨h1, h2⟩ := updateConversationIndex_all_cached env _ hall
  rw [htot] at h1
  exact ⟨h1, h2⟩

/-- **C2 witness.**  One conversation log with one exchange: the first update
indexes it (`{1, 1, 0}`); the second call reports the same count with the
single file skipped and zero embedding calls. -/
theorem update_idempotent_when_unchanged_witness :
    (updateConversationIndex sampleEnv
        (updateConversationIndex sampleEnv emptyIndexState).stateAfter).result =
      .ok ⟨1, 0, 1⟩ ∧
    (updateConversationIndex sampleEnv
        (updateConversationIndex sampleEnv emptyIndexState).stateAfter).embedCalls = 0 :=
  update_idempotent_when_unchanged sampleEnv emptyIndexState ⟨1, 1, 0⟩
    (by decide) rfl

/-- **C8.**  When an indexing pass fails on an embedding-gateway or
vector-store call, the failure propagates and the persisted `IndexState` is
left exactly as it was: `saveIndexState` runs only after the whole pass, so a
failing `updateConversationIndex` or `rebuildConversationIndex` commits
nothing. -/
theorem failed_pass_preserves_state :
    (∀ env st, (updateConversationIndex env st).result = .error () →
      (updateConversationIndex env st).stateAfter = st) ∧
    (∀ env st, (rebuildConversationIndex env st).result = .error () →
      (rebuildConversationIndex env st).stateAfter = st) := by
  constructor
  · intro env st h
    unfold updateConversationIndex at h ⊢
    rw [if_neg (by decide)] at h ⊢
    generalize hloop : updateLoop env env.files ⟨st.files, 0, 0, 0, 0⟩ = lr at h ⊢
    cases lr with
    | error e => rfl
    | ok acc => simp at h
  · intro env st h
    simp only [rebuildConversationIndex] at h ⊢
    by_cases h0 : (List.map (fun f => (fileExchanges env f).length) env.files).sum = 0
    · rw [if_pos h0] at h
      simp at h
    · rw [if_neg h0] at h ⊢
      generalize hembed : embedBatchCall env = er at h ⊢
      cases er with
      | error e => rfl
      | ok u =>
        generalize hup : upsertAll env
            (List.map (fun f => (fileExchanges env f).length) env.files).sum = ur at h ⊢
        cases ur with
        | error e => rfl
        | ok u2 => simp at h

/-- **C8 witness.**  With the embedding gateway down, the update pass over a
fresh file fails and leaves the empty persisted state untouched. -/
theorem failed_pass_preserves_state_witness :
    (updateConversationIndex sampleFailEnv emptyIndexState).stateAfter =
      emptyIndexState :=
  failed_pass_preserves_state.1 sampleFailEnv emptyIndexState rfl
